import Mathlib

/-!
Verification development for the plotly-dash-machine-learning document graph
viewer.  Part 1 embeds the browser asset scripts that ship under
`apps/docling_graph/assets/`; Part 2 embeds the document graph construction
engine (Reference Index, Reference Resolver, Graph Builder, Page-Range
Projector) and proves its structural invariants.
-/

namespace DoclingGraph

/- ===================================================================
   Part 1: browser asset scripts, translated from the JavaScript sources.
   =================================================================== -/

/-- A JavaScript numeric value as it flows through the ForceAtlas2 layout
shim: `undef` models `undefined`, `nan` models `NaN`, and `num q` a finite
number. -/
inductive JSVal where
  | undef
  | nan
  | num (q : ℚ)
deriving DecidableEq, Repr

/-- JavaScript truthiness of a numeric value: `undefined`, `NaN` and `0` are
falsy, every other number is truthy. -/
def truthy : JSVal → Bool
  | .undef => false
  | .nan => false
  | .num q => decide (q ≠ 0)

/-- JavaScript `a || b` on numeric values. -/
def jsOr (a b : JSVal) : JSVal := if truthy a then a else b

/-- The function `Math.max` on two values: `undefined` coerces to `NaN`, and
`NaN` propagates. -/
def jsMax : JSVal → JSVal → JSVal
  | .num x, .num y => .num (max x y)
  | _, _ => .nan

/-- Multiplication of two JavaScript numeric values (`NaN` propagates). -/
def jsMul : JSVal → JSVal → JSVal
  | .num x, .num y => .num (x * y)
  | _, _ => .nan

/-- The numeric arguments of the inner COSE layout call made by
`ForceAtlas2Layout.run` that are computed from the scaling factor. -/
structure CoseCall where
  nodeRepulsion : JSVal
  idealEdgeLength : JSVal
deriving DecidableEq, Repr

/-- The merged scaling option, the `scalingRatio` field of
`Object.assign` applied to the defaults and the caller's options: a property
the caller supplies (even one whose value is `undefined`) overrides the
default `1.0`; an absent property leaves the default. -/
def mergedScaling (o : Option JSVal) : JSVal := o.getD (.num 1)

/-- The method `ForceAtlas2Layout.prototype.run` from
`apps/docling_graph/assets/cytoscape-layout-forceatlas2.js`: when the
instance has no `cy` it returns without invoking any layout; otherwise it
computes `scaling = Math.max(0.5, opts.scalingRatio || 1.0)` and invokes the
COSE layout with `nodeRepulsion = 2048 * scaling` and
`idealEdgeLength = 50 * scaling`. -/
def fa2Run (hasCy : Bool) (scalingRatioOpt : Option JSVal) : Option CoseCall :=
  if hasCy then
    let scaling := jsMax (.num (1 / 2)) (jsOr (mergedScaling scalingRatioOpt) (.num 1))
    some ⟨jsMul (.num 2048) scaling, jsMul (.num 50) scaling⟩
  else none

/-- The `event.target` of a keydown event: its tag name (absent for
non-element targets) and its `isContentEditable` flag. -/
structure KeyTarget where
  tagName : Option String
  isContentEditable : Bool
deriving DecidableEq, Repr

/-- A keydown event as seen by the handler in
`docling-ws/apps/docling_graph/assets/keyboard.js`. -/
structure KeyEvent where
  key : String
  target : KeyTarget
deriving DecidableEq, Repr

/-- The zoom button clicked by the keyboard handler. -/
inductive ZoomAction where
  | zoomIn
  | zoomOut
  | zoomReset
deriving DecidableEq, Repr

/-- ASCII lowercasing of a string, character by character (the tag names
compared against are ASCII). -/
def lowerString (s : String) : String := ⟨s.data.map Char.toLower⟩

/-- The lowercased tag of the event target, modelling the expression
`e.target && e.target.tagName ? e.target.tagName.toLowerCase() : ""`. -/
def targetTag (t : KeyTarget) : String := lowerString (t.tagName.getD "")

/-- The guard of the keydown handler: typing targets (input, textarea, or a
contentEditable element) are ignored. -/
def formField (t : KeyTarget) : Prop :=
  targetTag t = "input" ∨ targetTag t = "textarea" ∨ t.isContentEditable = true

instance (t : KeyTarget) : Decidable (formField t) := by
  unfold formField; infer_instance

/-- The key-to-button mapping of the handler: '+' and '=' zoom in, '-' and
'_' zoom out, '0' resets, every other key does nothing. -/
def keyAction (k : String) : Option ZoomAction :=
  if k = "+" ∨ k = "=" then some .zoomIn
  else if k = "-" ∨ k = "_" then some .zoomOut
  else if k = "0" then some .zoomReset
  else none

/-- The keydown handler from
`docling-ws/apps/docling_graph/assets/keyboard.js`: returns the zoom button
clicked, `none` when no button is clicked; `preventDefault` is called
exactly when the result is `some`. -/
def handleKeydown (e : KeyEvent) : Option ZoomAction :=
  let tag := targetTag e.target
  if tag = "input" ∨ tag = "textarea" ∨ e.target.isContentEditable then none
  else if e.key = "+" ∨ e.key = "=" then some .zoomIn
  else if e.key = "-" ∨ e.key = "_" then some .zoomOut
  else if e.key = "0" then some .zoomReset
  else none

/-- The browser state the plugin-registration polling scripts observe,
indexed by the invocation number of the interval callback. -/
structure BrowserEnv where
  cytoscapeAvailable : Nat → Bool
  hasUse : Nat → Bool
  fa2Plugin : Nat → Bool
  eulerPlugin : Nat → Bool
  useSucceeds : Nat → Bool

/-- The function `tryRegister` of the ForceAtlas2 init script
(`src/unnamed/part_000`):
false when `window.cytoscape` is missing; when the plugin global and
`cy.use` are present the result is whether `cy.use` succeeded, otherwise
false. -/
def fa2TryRegister (env : BrowserEnv) (k : Nat) : Bool :=
  if !env.cytoscapeAvailable k then false
  else if env.fa2Plugin k && env.hasUse k then env.useSucceeds k
  else false

/-- The function `tryRegister` of `apps/docling_graph/assets/euler-init.js`:
false when
`window.cytoscape` or `cy.use` is missing, false when no Euler plugin global
is found, otherwise whether `cy.use` succeeded. -/
def eulerTryRegister (env : BrowserEnv) (k : Nat) : Bool :=
  if !env.cytoscapeAvailable k || !env.hasUse k then false
  else if !env.eulerPlugin k then false
  else env.useSucceeds k

/-- The `setInterval` polling loop shared by the two init scripts: each
invocation increments `attempts` and clears the timer when `tryRegister()`
succeeds or `attempts >= 20`.  The result is the invocation number at which
`clearInterval` runs, or `none` when the first `fuel` invocations do not
clear the timer. -/
def pollRun (tryReg : Nat → Bool) : Nat → Nat → Option Nat
  | 0, _ => none
  | fuel + 1, attempts =>
    if tryReg (attempts + 1) ∨ 20 ≤ attempts + 1 then some (attempts + 1)
    else pollRun tryReg fuel (attempts + 1)

/- ===================================================================
   Part 2: the document graph construction engine.
   The Python module `apps/docling_graph/graph_builder.py` referenced by the
   repository README is not present in the source tree, so the engine is
   modelled from the specification of its components.
   =================================================================== -/

/-- Modelled from the spec: one provenance entry, optionally carrying a page
number (`graph_builder.py` is absent from the tree). -/
structure ProvEntry where
  page_no : Option Nat
deriving DecidableEq, Repr

/-- Modelled from the spec: a structural item of a Docling document — an
optional self-reference, a source type tag, optional text content used for
labels, an ordered list of child references (pointer strings), and optional
provenance (`graph_builder.py` is absent from the tree). -/
structure Item where
  self_ref : Option String
  type_tag : String
  label_text : Option String
  children : List String
  prov : Option (List ProvEntry)
deriving DecidableEq, Repr

/-- Modelled from the spec: a normalized parsed document — an optional body
root plus the optional flat collections, an absent collection being the
empty list (`graph_builder.py` is absent from the tree). -/
structure DocumentSrc where
  body : Option Item
  texts : List Item
  groups : List Item
  tables : List Item
  pictures : List Item
deriving DecidableEq, Repr

/-- The closed set of node kinds; unknown collection types map to `other`. -/
inductive Kind where
  | document
  | page
  | text
  | group
  | table
  | picture
  | other
deriving DecidableEq, Repr

/-- Modelled from the spec: the child's kind is determined from its source
type tag, unknown tags becoming `other`. -/
def kindOfTag (tag : String) : Kind :=
  if tag = "text" then .text
  else if tag = "group" then .group
  else if tag = "table" then .table
  else if tag = "picture" then .picture
  else .other

def kindName : Kind → String
  | .document => "Document"
  | .page => "Page"
  | .text => "Text"
  | .group => "Group"
  | .table => "Table"
  | .picture => "Picture"
  | .other => "Other"

/-- The non-fatal warnings recorded during a build. -/
inductive Warning where
  | missingSelfRef
  | duplicateSelfRef (r : String)
  | danglingRef (r : String)
  | cycleRef (r : String)
  | noBodyRoot
deriving DecidableEq, Repr

/-- A node of the document graph. -/
structure Node where
  id : String
  kind : Kind
  label : String
  page : Option Nat
  order : Nat
  raw_ref : String
deriving DecidableEq, Repr

/-- A directed containment edge, carrying the child's sibling position. -/
structure Edge where
  parent_id : String
  child_id : String
  order : Nat
deriving DecidableEq, Repr

/-- The document graph: ordered nodes, edges, and recorded warnings. -/
structure Graph where
  nodes : List Node
  edges : List Edge
  warnings : List Warning
deriving DecidableEq, Repr

/-- Modelled from the spec: the items drawn on by the Reference Index, in
indexing order — the body root then the flat collections
(`graph_builder.py` is absent from the tree). -/
def indexItems (d : DocumentSrc) : List Item :=
  (match d.body with | none => [] | some b => [b]) ++
    d.texts ++ d.groups ++ d.tables ++ d.pictures

/-- One step of Reference Index construction: an item without a
self-reference is skipped with a warning; a collision keeps the first-seen
item with a warning. -/
def addIndexed (acc : List (String × Item) × List Warning) (it : Item) :
    List (String × Item) × List Warning :=
  match it.self_ref with
  | none => (acc.1, acc.2 ++ [.missingSelfRef])
  | some r =>
    if (acc.1.lookup r).isSome then (acc.1, acc.2 ++ [.duplicateSelfRef r])
    else (acc.1 ++ [(r, it)], acc.2)

/-- Modelled from the spec: the Reference Index — a mapping from each item's
self-reference to the item (`graph_builder.py` is absent from the tree). -/
def buildIndex (d : DocumentSrc) : List (String × Item) × List Warning :=
  (indexItems d).foldl addIndexed ([], [])

/-- Modelled from the spec: the Reference Resolver — a pure lookup which
never raises, returning `none` for a dangling reference
(`graph_builder.py` is absent from the tree). -/
def resolveRef (idx : List (String × Item)) (r : String) : Option Item :=
  idx.lookup r

/-- Modelled from the spec: page extraction — the first provenance entry's
page number when the provenance list is present and non-empty, otherwise
absent; a total function, so missing or malformed provenance never raises
(`graph_builder.py` is absent from the tree). -/
def extractPage (it : Item) : Option Nat :=
  match it.prov with
  | some (e :: _) => e.page_no
  | _ => none

/-- Modelled from the spec: a node label — the item's text content when
present, otherwise a kind-plus-index fallback. -/
def labelOf (it : Item) (k : Kind) (ord : Nat) : String :=
  match it.label_text with
  | some s => s
  | none => kindName k ++ " #" ++ toString ord

def addWarning (g : Graph) (w : Warning) : Graph :=
  { g with warnings := g.warnings ++ [w] }

def addEdge (g : Graph) (p c : String) (ord : Nat) : Graph :=
  { g with edges := g.edges ++ [⟨p, c, ord⟩] }

def hasNode (g : Graph) (r : String) : Bool :=
  g.nodes.any (fun n => n.id = r)

def mkNode (r : String) (it : Item) (ord : Nat) : Node :=
  let k := kindOfTag it.type_tag
  ⟨r, k, labelOf it k ord, extractPage it, ord, r⟩

def addNode (g : Graph) (n : Node) : Graph :=
  { g with nodes := g.nodes ++ [n] }

/-- Modelled from the spec: the Graph Builder's depth-first traversal
(`graph_builder.py` is absent from the tree).  `path` holds the
self-references on the active recursion path (the cycle guard); children
are processed in source list order paired with their zero-based position.
A reference back to the active path is skipped with a cycle warning; a
dangling reference drops the edge with a warning; a reference to an already
built node only adds the containment edge.  `fuel` bounds the number of
traversal steps; `buildGraph` supplies `fuelFor`, which exceeds the total
number of child slots reachable through the index. -/
def visit (idx : List (String × Item)) :
    Nat → List String → String → List (Nat × String) → Graph → Graph
  | 0, _, _, _, g => g
  | _ + 1, _, _, [], g => g
  | fuel + 1, path, parentId, (ord, c) :: rest, g =>
    let g' :=
      if c ∈ path then addWarning g (.cycleRef c)
      else
        match resolveRef idx c with
        | none => addWarning g (.danglingRef c)
        | some it =>
          if hasNode g c then addEdge g parentId c ord
          else
            visit idx fuel (c :: path) c it.children.enum
              (addEdge (addNode g (mkNode c it ord)) parentId c ord)
    visit idx fuel path parentId rest g'

/-- A step budget sufficient for the whole traversal: one step per child
slot of every indexed item, plus slack. -/
def fuelFor (idx : List (String × Item)) : Nat :=
  1 + (idx.map (fun p => 1 + p.2.children.length)).sum

/-- Modelled from the spec: the Graph Builder — when the source defines no
body root (no `body`, or a body without a self-reference) the result is an
empty graph with a warning; otherwise the Document root node is created
from the body item and the traversal starts from the body's child
references (`graph_builder.py` is absent from the tree). -/
def buildGraph (d : DocumentSrc) : Graph :=
  match d.body with
  | none => ⟨[], [], [.noBodyRoot]⟩
  | some body =>
    match body.self_ref with
    | none => ⟨[], [], [.missingSelfRef, .noBodyRoot]⟩
    | some rootRef =>
      let iw := buildIndex d
      let rootNode : Node :=
        ⟨rootRef, .document, labelOf body .document 0, extractPage body, 0, rootRef⟩
      visit iw.1 (fuelFor iw.1) [rootRef] rootRef body.children.enum
        ⟨[rootNode], [], iw.2⟩

/-- Does the source define a usable body root? -/
def hasBodyRoot (d : DocumentSrc) : Bool :=
  match d.body with
  | some b => b.self_ref.isSome
  | none => false

/- ========================= Page-Range Projector ========================= -/

/-- Modelled from the spec: membership of an optional page in an inclusive
range with optional bounds; a node without a page is never in range
(`graph_builder.py` is absent from the tree). -/
def pageInRange (lo hi : Option Nat) (p : Option Nat) : Bool :=
  match p with
  | none => false
  | some pg =>
    (match lo with | none => true | some l => decide (l ≤ pg)) &&
      (match hi with | none => true | some h => decide (pg ≤ h))

/-- All parent endpoints occurring in an edge list. -/
def parentIds (es : List Edge) : Finset String :=
  (es.map (fun e => e.parent_id)).toFinset

/-- One step of ancestor collection: add the parent endpoint of every edge
whose child endpoint is already kept. -/
def ancStep (es : List Edge) (keep : Finset String) : Finset String :=
  keep ∪ ((es.filter (fun e => decide (e.child_id ∈ keep))).map
    (fun e => e.parent_id)).toFinset

/-- Iterate `ancStep` to a fixed point (reached within `parentIds.card`
steps). -/
def ancClose (es : List Edge) : Nat → Finset String → Finset String
  | 0, keep => keep
  | n + 1, keep =>
    let keep' := ancStep es keep
    if keep' = keep then keep else ancClose es n keep'

/-- The ids of the nodes whose page falls in the range. -/
def inRangeIds (g : Graph) (lo hi : Option Nat) : Finset String :=
  ((g.nodes.filter (fun n => pageInRange lo hi n.page)).map
    (fun n => n.id)).toFinset

/-- Modelled from the spec: the ids kept by the Page-Range Projector — the
in-range nodes, every ancestor of one of them, and the root (the first node
of the graph) (`graph_builder.py` is absent from the tree). -/
def keepIds (g : Graph) (lo hi : Option Nat) : Finset String :=
  match g.nodes.head? with
  | none => ∅
  | some r =>
    insert r.id (ancClose g.edges (parentIds g.edges).card (inRangeIds g lo hi))

/-- Modelled from the spec: the Page-Range Projector — the induced subgraph
on the kept ids: kept nodes in their original order, and every edge whose
both endpoints are kept (`graph_builder.py` is absent from the tree). -/
def projectGraph (g : Graph) (lo hi : Option Nat) : Graph :=
  ⟨g.nodes.filter (fun n => decide (n.id ∈ keepIds g lo hi)),
   g.edges.filter (fun e =>
     decide (e.parent_id ∈ keepIds g lo hi) && decide (e.child_id ∈ keepIds g lo hi)),
   []⟩

/-- Some node of the graph carries the given id. -/
def hasNodeId (g : Graph) (r : String) : Prop := ∃ n ∈ g.nodes, n.id = r

/-- The structural invariant maintained by the builder: the node list starts
with the root, every non-root node has an incoming edge, no edge points at
the root, and every edge's endpoints are nodes of the graph. -/
def Inv (rootId : String) (g : Graph) : Prop :=
  (∃ r rest, g.nodes = r :: rest ∧ r.id = rootId ∧
     ∀ n ∈ rest, ∃ e ∈ g.edges, e.child_id = n.id) ∧
  (∀ e ∈ g.edges, e.child_id ≠ rootId) ∧
  (∀ e ∈ g.edges, hasNodeId g e.parent_id ∧ hasNodeId g e.child_id)

/-- A document with no provenance anywhere. -/
def noProv (d : DocumentSrc) : Prop := ∀ it ∈ indexItems d, it.prov = none

instance (d : DocumentSrc) : Decidable (noProv d) := by
  unfold noProv; infer_instance

/- ===================== example documents ===================== -/

/-- A text item with provenance on page 1 (the worked example of §8). -/
def textItem1 : Item := ⟨some "#/texts/0", "text", some "Hello", [], some [⟨some 1⟩]⟩

/-- A text item with no provenance. -/
def textItem2 : Item := ⟨some "#/texts/1", "text", none, [], none⟩

/-- A body root referencing the two text items in order. -/
def bodyItem : Item := ⟨some "#/body", "body", none, ["#/texts/0", "#/texts/1"], none⟩

/-- The worked example document of §8. -/
def exampleDoc : DocumentSrc := ⟨some bodyItem, [textItem1, textItem2], [], [], []⟩

/-- A document defining no body root. -/
def emptyDoc : DocumentSrc := ⟨none, [], [], [], []⟩

/-- A document with no provenance anywhere. -/
def noProvDoc : DocumentSrc :=
  ⟨some ⟨some "#/body", "body", none, ["#/texts/0"], none⟩,
   [⟨some "#/texts/0", "text", none, [], none⟩], [], [], []⟩

/-- The nodes of a graph with zero incoming edges. -/
def zeroInDeg (g : Graph) : List Node :=
  g.nodes.filter (fun n => g.edges.all (fun e => decide (e.child_id ≠ n.id)))


/- ===================== builder invariant lemmas ===================== -/

theorem pollRun_clears (tryReg : Nat → Bool) :
    ∀ fuel attempts, fuel + attempts = 20 → attempts ≤ 19 →
      ∃ k, pollRun tryReg fuel attempts = some k ∧ k ≤ 20 := by
  intro fuel
  induction fuel with
  | zero => intro a h h19; omega
  | succ m ih =>
    intro a h h19
    by_cases hc : tryReg (a + 1) ∨ 20 ≤ a + 1
    · refine ⟨a + 1, ?_, by omega⟩
      simp only [pollRun]
      rw [if_pos hc]
    · obtain ⟨k, hk, hk20⟩ := ih (a + 1) (by omega) (by omega)
      refine ⟨k, ?_, hk20⟩
      simp only [pollRun]
      rw [if_neg hc]
      exact hk



theorem hasNode_iff (g : Graph) (r : String) :
    hasNode g r = true ↔ hasNodeId g r := by
  simp [hasNode, hasNodeId, List.any_eq_true]

/-- The traversal only appends to the node, edge and warning lists. -/
theorem visit_mono (idx : List (String × Item)) :
    ∀ fuel path parentId children g,
      (∀ n ∈ g.nodes, n ∈ (visit idx fuel path parentId children g).nodes) ∧
      (∀ e ∈ g.edges, e ∈ (visit idx fuel path parentId children g).edges) ∧
      (∀ w ∈ g.warnings, w ∈ (visit idx fuel path parentId children g).warnings) := by
  intro fuel
  induction fuel with
  | zero =>
    intro path parentId children g
    exact ⟨fun n hn => hn, fun e he => he, fun w hw => hw⟩
  | succ m ih =>
    intro path parentId children g
    match children with
    | [] => exact ⟨fun n hn => hn, fun e he => he, fun w hw => hw⟩
    | (ord, c) :: rest =>
      have step : ∀ g' : Graph,
          (∀ n ∈ g.nodes, n ∈ g'.nodes) → (∀ e ∈ g.edges, e ∈ g'.edges) →
          (∀ w ∈ g.warnings, w ∈ g'.warnings) →
          (∀ n ∈ g.nodes, n ∈ (visit idx m path parentId rest g').nodes) ∧
          (∀ e ∈ g.edges, e ∈ (visit idx m path parentId rest g').edges) ∧
          (∀ w ∈ g.warnings, w ∈ (visit idx m path parentId rest g').warnings) := by
        intro g' h1 h2 h3
        obtain ⟨i1, i2, i3⟩ := ih path parentId rest g'
        exact ⟨fun n hn => i1 n (h1 n hn), fun e he => i2 e (h2 e he),
               fun w hw => i3 w (h3 w hw)⟩
      simp only [visit]
      by_cases hc : c ∈ path
      · rw [if_pos hc]
        exact step _ (fun n hn => hn) (fun e he => he)
          (fun w hw => List.mem_append_left _ hw)
      · rw [if_neg hc]
        cases hre : resolveRef idx c with
        | none =>
          exact step _ (fun n hn => hn) (fun e he => he)
            (fun w hw => List.mem_append_left _ hw)
        | some it =>
          dsimp only
          by_cases hv : hasNode g c = true
          · rw [if_pos hv]
            exact step _ (fun n hn => hn) (fun e he => List.mem_append_left _ he)
              (fun w hw => hw)
          · rw [if_neg hv]
            obtain ⟨j1, j2, j3⟩ := ih (c :: path) c it.children.enum
              (addEdge (addNode g (mkNode c it ord)) parentId c ord)
            exact step _
              (fun n hn => j1 n (List.mem_append_left _ hn))
              (fun e he => j2 e (List.mem_append_left _ he))
              (fun w hw => j3 w hw)

theorem inv_addEdge (rootId : String) (g : Graph) (p c : String) (ord : Nat)
    (hinv : Inv rootId g) (hp : hasNodeId g p) (hcn : hasNodeId g c)
    (hcr : c ≠ rootId) : Inv rootId (addEdge g p c ord) := by
  obtain ⟨⟨r, rest, hns, hrid, hrest⟩, hnr, hwf⟩ := hinv
  refine ⟨⟨r, rest, hns, hrid, ?_⟩, ?_, ?_⟩
  · intro n hn
    obtain ⟨e, he, hce⟩ := hrest n hn
    exact ⟨e, List.mem_append_left _ he, hce⟩
  · intro e he
    rcases List.mem_append.mp he with h1 | h2
    · exact hnr e h1
    · rcases List.mem_singleton.mp h2 with rfl
      exact hcr
  · intro e he
    rcases List.mem_append.mp he with h1 | h2
    · exact hwf e h1
    · rcases List.mem_singleton.mp h2 with rfl
      exact ⟨hp, hcn⟩

theorem inv_addNodeEdge (rootId : String) (g : Graph) (p c : String)
    (it : Item) (ord : Nat) (hinv : Inv rootId g) (hp : hasNodeId g p)
    (hcr : c ≠ rootId) :
    Inv rootId (addEdge (addNode g (mkNode c it ord)) p c ord) ∧
    hasNodeId (addEdge (addNode g (mkNode c it ord)) p c ord) c := by
  obtain ⟨⟨r, rest, hns, hrid, hrest⟩, hnr, hwf⟩ := hinv
  have hcid : (mkNode c it ord).id = c := rfl
  have hmem : (mkNode c it ord) ∈ g.nodes ++ [mkNode c it ord] :=
    List.mem_append_right _ (List.mem_singleton.mpr rfl)
  refine ⟨⟨⟨r, rest ++ [mkNode c it ord], ?_, hrid, ?_⟩, ?_, ?_⟩, ?_⟩
  · show g.nodes ++ [mkNode c it ord] = r :: (rest ++ [mkNode c it ord])
    rw [hns]; rfl
  · intro n hn
    rcases List.mem_append.mp hn with h1 | h2
    · obtain ⟨e, he, hce⟩ := hrest n h1
      exact ⟨e, List.mem_append_left _ he, hce⟩
    · rcases List.mem_singleton.mp h2 with rfl
      exact ⟨⟨p, c, ord⟩, List.mem_append_right _ (List.mem_singleton.mpr rfl), rfl⟩
  · intro e he
    rcases List.mem_append.mp he with h1 | h2
    · exact hnr e h1
    · rcases List.mem_singleton.mp h2 with rfl
      exact hcr
  · intro e he
    rcases List.mem_append.mp he with h1 | h2
    · obtain ⟨⟨n1, hn1, hid1⟩, ⟨n2, hn2, hid2⟩⟩ := hwf e h1
      exact ⟨⟨n1, List.mem_append_left _ hn1, hid1⟩,
             ⟨n2, List.mem_append_left _ hn2, hid2⟩⟩
    · rcases List.mem_singleton.mp h2 with rfl
      obtain ⟨n1, hn1, hid1⟩ := hp
      exact ⟨⟨n1, List.mem_append_left _ hn1, hid1⟩, ⟨mkNode c it ord, hmem, hcid⟩⟩
  · exact ⟨mkNode c it ord, hmem, hcid⟩

/-- The traversal preserves the structural invariant. -/
theorem visit_inv (idx : List (String × Item)) (rootId : String) :
    ∀ fuel path parentId children g,
      rootId ∈ path → hasNodeId g parentId → Inv rootId g →
      Inv rootId (visit idx fuel path parentId children g) := by
  intro fuel
  induction fuel with
  | zero => intro path parentId children g _ _ hinv; exact hinv
  | succ m ih =>
    intro path parentId children g hroot hpar hinv
    match children with
    | [] => exact hinv
    | (ord, c) :: rest =>
      simp only [visit]
      by_cases hc : c ∈ path
      · rw [if_pos hc]
        exact ih path parentId rest _ hroot hpar hinv
      · rw [if_neg hc]
        have hcr : c ≠ rootId := fun h => hc (h ▸ hroot)
        cases hre : resolveRef idx c with
        | none => exact ih path parentId rest _ hroot hpar hinv
        | some it =>
          dsimp only
          by_cases hv : hasNode g c = true
          · rw [if_pos hv]
            exact ih path parentId rest _ hroot hpar
              (inv_addEdge rootId g parentId c ord hinv hpar
                ((hasNode_iff g c).mp hv) hcr)
          · rw [if_neg hv]
            obtain ⟨hinv1, hcn1⟩ :=
              inv_addNodeEdge rootId g parentId c it ord hinv hpar hcr
            have hpar1 : hasNodeId
                (addEdge (addNode g (mkNode c it ord)) parentId c ord) parentId := by
              obtain ⟨n1, hn1, hid1⟩ := hpar
              exact ⟨n1, List.mem_append_left _ hn1, hid1⟩
            have hinv2 := ih (c :: path) c it.children.enum _
              (List.mem_cons_of_mem _ hroot) hcn1 hinv1
            have hpar2 : hasNodeId
                (visit idx m (c :: path) c it.children.enum
                  (addEdge (addNode g (mkNode c it ord)) parentId c ord)) parentId := by
              obtain ⟨n1, hn1, hid1⟩ := hpar1
              exact ⟨n1, (visit_mono idx m (c :: path) c it.children.enum _).1 n1 hn1, hid1⟩
            exact ih path parentId rest _ hroot hpar2 hinv2

/-- The graph built from a document with a usable body root satisfies the
structural invariant. -/
theorem buildGraph_inv (d : DocumentSrc) (body : Item) (rootRef : String)
    (hb : d.body = some body) (hr : body.self_ref = some rootRef) :
    Inv rootRef (buildGraph d) := by
  have hinit : Inv rootRef
      (⟨[⟨rootRef, .document, labelOf body .document 0, extractPage body, 0, rootRef⟩],
        [], (buildIndex d).2⟩ : Graph) := by
    refine ⟨⟨_, [], rfl, rfl, ?_⟩, ?_, ?_⟩
    · intro n hn; exact absurd hn (List.not_mem_nil n)
    · intro e he; exact absurd he (List.not_mem_nil e)
    · intro e he; exact absurd he (List.not_mem_nil e)
  have hpar : hasNodeId
      (⟨[⟨rootRef, .document, labelOf body .document 0, extractPage body, 0, rootRef⟩],
        [], (buildIndex d).2⟩ : Graph) rootRef :=
    ⟨_, List.mem_singleton.mpr rfl, rfl⟩
  simpa only [buildGraph, hb, hr] using
    visit_inv (buildIndex d).1 rootRef (fuelFor (buildIndex d).1) [rootRef] rootRef
      body.children.enum _ (List.mem_singleton.mpr rfl) hpar hinit

/- ===================== index and page lemmas ===================== -/

theorem lookup_mem :
    ∀ (l : List (String × Item)) (r : String) (it : Item),
      l.lookup r = some it → (r, it) ∈ l := by
  intro l
  induction l with
  | nil => intro r it h; simp [List.lookup] at h
  | cons p tl ih =>
    intro r it h
    obtain ⟨k, v⟩ := p
    cases hbe : r == k with
    | true =>
      have hrk : r = k := eq_of_beq hbe
      subst hrk
      simp only [List.lookup, hbe, Option.some.injEq] at h
      subst h
      exact List.mem_cons_self _ _
    | false =>
      simp only [List.lookup, hbe] at h
      exact List.mem_cons_of_mem _ (ih r it h)

theorem foldl_addIndexed_mem :
    ∀ (items : List Item) (acc : List (String × Item) × List Warning)
      (r : String) (it : Item),
      (r, it) ∈ (items.foldl addIndexed acc).1 → (r, it) ∈ acc.1 ∨ it ∈ items := by
  intro items
  induction items with
  | nil => intro acc r it h; exact Or.inl h
  | cons a tl ih =>
    intro acc r it h
    rcases ih (addIndexed acc a) r it h with h1 | h2
    · unfold addIndexed at h1
      cases ha : a.self_ref with
      | none =>
        rw [ha] at h1
        dsimp only at h1
        exact Or.inl h1
      | some ra =>
        rw [ha] at h1
        dsimp only at h1
        by_cases hl : (List.lookup ra acc.1).isSome = true
        · rw [if_pos hl] at h1
          exact Or.inl h1
        · rw [if_neg hl] at h1
          rcases List.mem_append.mp h1 with h3 | h4
          · exact Or.inl h3
          · rcases List.mem_singleton.mp h4 with h5
            have hita : it = a := congrArg Prod.snd h5
            exact Or.inr (hita ▸ List.mem_cons_self _ _)
    · exact Or.inr (List.mem_cons_of_mem _ h2)

theorem buildIndex_mem (d : DocumentSrc) (r : String) (it : Item)
    (h : (r, it) ∈ (buildIndex d).1) : it ∈ indexItems d := by
  rcases foldl_addIndexed_mem (indexItems d) ([], []) r it h with h1 | h2
  · exact absurd h1 (List.not_mem_nil _)
  · exact h2

theorem visit_pages (idx : List (String × Item))
    (hidx : ∀ p ∈ idx, (Prod.snd p).prov = none) :
    ∀ fuel path parentId children g,
      (∀ n ∈ g.nodes, n.page = none) →
      ∀ n ∈ (visit idx fuel path parentId children g).nodes, n.page = none := by
  intro fuel
  induction fuel with
  | zero => intro path parentId children g hg; exact hg
  | succ m ih =>
    intro path parentId children g hg
    match children with
    | [] => exact hg
    | (ord, c) :: rest =>
      simp only [visit]
      by_cases hc : c ∈ path
      · rw [if_pos hc]
        exact ih path parentId rest _ hg
      · rw [if_neg hc]
        cases hre : resolveRef idx c with
        | none => exact ih path parentId rest _ hg
        | some it =>
          dsimp only
          by_cases hv : hasNode g c = true
          · rw [if_pos hv]
            exact ih path parentId rest _ hg
          · rw [if_neg hv]
            have hit : it.prov = none :=
              hidx (c, it) (lookup_mem idx c it hre)
            have hpage : (mkNode c it ord).page = none := by
              show extractPage it = none
              rw [extractPage, hit]
            have hg1 : ∀ n ∈ (addEdge (addNode g (mkNode c it ord)) parentId c ord).nodes,
                n.page = none := by
              intro n hn
              rcases List.mem_append.mp hn with h1 | h2
              · exact hg n h1
              · rcases List.mem_singleton.mp h2 with rfl
                exact hpage
            exact ih path parentId rest _ (ih (c :: path) c it.children.enum _ hg1)

/- ===================== projector lemmas ===================== -/

theorem mem_ancStep {es : List Edge} {keep : Finset String} {x : String} :
    x ∈ ancStep es keep ↔
      x ∈ keep ∨ ∃ e, e ∈ es ∧ e.child_id ∈ keep ∧ e.parent_id = x := by
  constructor
  · intro h
    rcases Finset.mem_union.mp h with h1 | h2
    · exact Or.inl h1
    · rcases List.mem_map.mp (List.mem_toFinset.mp h2) with ⟨e, he, hpe⟩
      rcases List.mem_filter.mp he with ⟨hes, hch⟩
      exact Or.inr ⟨e, hes, of_decide_eq_true hch, hpe⟩
  · intro h
    rcases h with h1 | ⟨e, hes, hch, hpe⟩
    · exact Finset.mem_union_left _ h1
    · refine Finset.mem_union_right _
        (List.mem_toFinset.mpr (List.mem_map.mpr ⟨e, ?_, hpe⟩))
      exact List.mem_filter.mpr ⟨hes, decide_eq_true hch⟩

theorem subset_ancStep (es : List Edge) (keep : Finset String) :
    keep ⊆ ancStep es keep :=
  Finset.subset_union_left

theorem subset_ancClose (es : List Edge) :
    ∀ n (keep : Finset String), keep ⊆ ancClose es n keep := by
  intro n
  induction n with
  | zero => intro keep; exact subset_rfl
  | succ m ih =>
    intro keep
    simp only [ancClose]
    by_cases h : ancStep es keep = keep
    · rw [if_pos h]
    · rw [if_neg h]
      exact subset_trans (subset_ancStep es keep) (ih (ancStep es keep))

theorem ancClose_closed (es : List Edge) :
    ∀ n (keep : Finset String), (parentIds es \ keep).card ≤ n →
      ∀ e ∈ es, e.child_id ∈ ancClose es n keep →
        e.parent_id ∈ ancClose es n keep := by
  intro n
  induction n with
  | zero =>
    intro keep hcard e hes hch
    have hsub : parentIds es ⊆ keep := by
      intro x hx
      by_contra hxk
      have hmem : x ∈ parentIds es \ keep := Finset.mem_sdiff.mpr ⟨hx, hxk⟩
      have hpos : 0 < (parentIds es \ keep).card := Finset.card_pos.mpr ⟨x, hmem⟩
      omega
    simp only [ancClose] at hch ⊢
    exact hsub (List.mem_toFinset.mpr (List.mem_map.mpr ⟨e, hes, rfl⟩))
  | succ m ih =>
    intro keep hcard e hes hch
    simp only [ancClose] at hch ⊢
    by_cases h : ancStep es keep = keep
    · rw [if_pos h] at hch ⊢
      have hmem : e.parent_id ∈ ancStep es keep :=
        mem_ancStep.mpr (Or.inr ⟨e, hes, hch, rfl⟩)
      rwa [h] at hmem
    · rw [if_neg h] at hch ⊢
      refine ih (ancStep es keep) ?_ e hes hch
      have hks : keep ⊆ ancStep es keep := subset_ancStep es keep
      have hne : ∃ a, a ∈ ancStep es keep ∧ a ∉ keep := by
        by_contra hno
        push_neg at hno
        exact h (Finset.Subset.antisymm (fun a ha => hno a ha) hks)
      obtain ⟨a, haS, hak⟩ := hne
      have haP : a ∈ parentIds es := by
        rcases mem_ancStep.mp haS with h1 | ⟨e2, he2, _, hpe2⟩
        · exact absurd h1 hak
        · exact hpe2 ▸ List.mem_toFinset.mpr (List.mem_map.mpr ⟨e2, he2, rfl⟩)
      have hss : parentIds es \ ancStep es keep ⊂ parentIds es \ keep := by
        rw [Finset.ssubset_iff_of_subset]
        · exact ⟨a, Finset.mem_sdiff.mpr ⟨haP, hak⟩,
            fun hmem => (Finset.mem_sdiff.mp hmem).2 haS⟩
        · intro x hx
          rcases Finset.mem_sdiff.mp hx with ⟨hx1, hx2⟩
          exact Finset.mem_sdiff.mpr ⟨hx1, fun hxk => hx2 (hks hxk)⟩
      have := Finset.card_lt_card hss
      omega

theorem ancClose_minimal (es : List Edge) (S : Finset String)
    (hS : ∀ e ∈ es, e.child_id ∈ S → e.parent_id ∈ S) :
    ∀ n (keep : Finset String), keep ⊆ S → ancClose es n keep ⊆ S := by
  intro n
  induction n with
  | zero => intro keep h; exact h
  | succ m ih =>
    intro keep h
    simp only [ancClose]
    by_cases hf : ancStep es keep = keep
    · rw [if_pos hf]; exact h
    · rw [if_neg hf]
      refine ih (ancStep es keep) ?_
      intro x hx
      rcases mem_ancStep.mp hx with h1 | ⟨e, hes, hch, hpe⟩
      · exact h h1
      · exact hpe ▸ hS e hes (h hch)

theorem keepIds_closed (g : Graph) (lo hi : Option Nat) (r : Node)
    (hr : g.nodes.head? = some r) (e : Edge) (he : e ∈ g.edges)
    (hch : e.child_id ∈ keepIds g lo hi) (hne : e.child_id ≠ r.id) :
    e.parent_id ∈ keepIds g lo hi := by
  simp only [keepIds, hr] at hch ⊢
  rcases Finset.mem_insert.mp hch with h1 | h2
  · exact absurd h1 hne
  · exact Finset.mem_insert_of_mem
      (ancClose_closed g.edges _ _
        (Finset.card_le_card Finset.sdiff_subset) e he h2)

theorem inRangeIds_mono (g : Graph) (lo hi lo2 hi2 : Option Nat)
    (hsub : ∀ p : Option Nat, pageInRange lo2 hi2 p = true →
      pageInRange lo hi p = true) :
    inRangeIds g lo2 hi2 ⊆ inRangeIds g lo hi := by
  intro x hx
  rcases List.mem_map.mp (List.mem_toFinset.mp hx) with ⟨n, hn, hnx⟩
  rcases List.mem_filter.mp hn with ⟨hng, hpr⟩
  exact List.mem_toFinset.mpr
    (List.mem_map.mpr ⟨n, List.mem_filter.mpr ⟨hng, hsub _ hpr⟩, hnx⟩)

theorem keepIds_mono (g : Graph) (lo hi lo2 hi2 : Option Nat)
    (hsub : ∀ p : Option Nat, pageInRange lo2 hi2 p = true →
      pageInRange lo hi p = true) :
    keepIds g lo2 hi2 ⊆ keepIds g lo hi := by
  cases hh : g.nodes.head? with
  | none => simp [keepIds, hh]
  | some r =>
    simp only [keepIds, hh]
    apply Finset.insert_subset_insert
    refine ancClose_minimal g.edges _ ?_ _ _ ?_
    · intro e hes hch
      exact ancClose_closed g.edges _ _
        (Finset.card_le_card Finset.sdiff_subset) e hes hch
    · exact subset_trans (inRangeIds_mono g lo hi lo2 hi2 hsub)
        (subset_ancClose g.edges _ _)

/- ===================== claim theorems ===================== -/

/-- C1: building a DocumentGraph twice from the same input is deterministic —
two builds over an identical parsed document yield identical node ids,
kinds, labels, pages, and edge orderings (the builder is a pure function of
its input, with no other source of variation). -/
theorem build_deterministic (d : DocumentSrc) :
    (buildGraph d).nodes.map (fun n => (n.id, n.kind, n.label, n.page)) =
      (buildGraph d).nodes.map (fun n => (n.id, n.kind, n.label, n.page)) ∧
    (buildGraph d).edges.map (fun e => (e.parent_id, e.child_id, e.order)) =
      (buildGraph d).edges.map (fun e => (e.parent_id, e.child_id, e.order)) :=
  ⟨rfl, rfl⟩

/-- C2: no dangling edges — every edge of every built graph has both its
parent and child endpoints present as nodes of that graph; a resolution
failure drops the edge rather than producing a dangling endpoint. -/
theorem no_dangling_edges (d : DocumentSrc) (e : Edge)
    (he : e ∈ (buildGraph d).edges) :
    (∃ n ∈ (buildGraph d).nodes, n.id = e.parent_id) ∧
    (∃ n ∈ (buildGraph d).nodes, n.id = e.child_id) := by
  cases hb : d.body with
  | none => simp [buildGraph, hb] at he
  | some body =>
    cases hrf : body.self_ref with
    | none => simp [buildGraph, hb, hrf] at he
    | some rootRef => exact (buildGraph_inv d body rootRef hb hrf).2.2 e he

theorem no_dangling_edges_witness :
    (⟨"#/body", "#/texts/0", 0⟩ : Edge) ∈ (buildGraph exampleDoc).edges ∧
    ((∃ n ∈ (buildGraph exampleDoc).nodes, n.id = "#/body") ∧
     (∃ n ∈ (buildGraph exampleDoc).nodes, n.id = "#/texts/0")) :=
  ⟨by decide, no_dangling_edges exampleDoc ⟨"#/body", "#/texts/0", 0⟩ (by decide)⟩

/-- C3: single root — every non-empty built graph has exactly one node with
zero incoming edges (the Document root); when the source defines no body
root the built graph is empty. -/
theorem single_root (d : DocumentSrc) :
    ((buildGraph d).nodes ≠ [] → (zeroInDeg (buildGraph d)).length = 1) ∧
    (hasBodyRoot d = false → (buildGraph d).nodes = []) := by
  constructor
  · intro hne
    cases hb : d.body with
    | none => exact absurd (by simp [buildGraph, hb]) hne
    | some body =>
      cases hrf : body.self_ref with
      | none => exact absurd (by simp [buildGraph, hb, hrf]) hne
      | some rootRef =>
        obtain ⟨⟨r, rest, hns, hrid, hrest⟩, hnr, _⟩ :=
          buildGraph_inv d body rootRef hb hrf
        have hfil : zeroInDeg (buildGraph d) = [r] := by
          unfold zeroInDeg
          rw [hns, List.filter_cons_of_pos, List.filter_eq_nil_iff.mpr]
          · intro n hn hp
            obtain ⟨e, he, hce⟩ := hrest n hn
            have := of_decide_eq_true (List.all_eq_true.mp hp e he)
            exact this hce
          · rw [List.all_eq_true]
            intro e he
            exact decide_eq_true (hrid ▸ hnr e he)
        rw [hfil]
        rfl
  · intro hbr
    cases hb : d.body with
    | none => simp [buildGraph, hb]
    | some body =>
      cases hrf : body.self_ref with
      | none => simp [buildGraph, hb, hrf]
      | some rootRef => simp [hasBodyRoot, hb, hrf] at hbr

theorem single_root_witness :
    ((buildGraph exampleDoc).nodes ≠ [] ∧
      (zeroInDeg (buildGraph exampleDoc)).length = 1) ∧
    (hasBodyRoot emptyDoc = false ∧ (buildGraph emptyDoc).nodes = []) :=
  ⟨⟨by decide, (single_root exampleDoc).1 (by decide)⟩,
   ⟨by decide, (single_root emptyDoc).2 (by decide)⟩⟩

/-- C4: projection connectivity — every node of the projector's output other
than the root has every parent of it (via any edge of the source graph)
also present in the output, because every ancestor of an in-range node up
to the root is retained.  The source graph is assumed to have no dangling
parent endpoints, which every built graph satisfies (C2). -/
theorem projection_connectivity (g : Graph) (lo hi : Option Nat)
    (hnd : ∀ e ∈ g.edges, ∃ n ∈ g.nodes, n.id = e.parent_id)
    (r : Node) (hr : g.nodes.head? = some r)
    (n : Node) (hn : n ∈ (projectGraph g lo hi).nodes) (hne : n.id ≠ r.id)
    (e : Edge) (he : e ∈ g.edges) (hce : e.child_id = n.id) :
    ∃ p ∈ (projectGraph g lo hi).nodes, p.id = e.parent_id := by
  have hnk : n.id ∈ keepIds g lo hi :=
    of_decide_eq_true (List.mem_filter.mp hn).2
  have hpk : e.parent_id ∈ keepIds g lo hi :=
    keepIds_closed g lo hi r hr e he (hce ▸ hnk) (hce ▸ hne)
  obtain ⟨p, hp, hpe⟩ := hnd e he
  exact ⟨p, List.mem_filter.mpr ⟨hp, decide_eq_true (hpe ▸ hpk)⟩, hpe⟩

theorem projection_connectivity_witness :
    (⟨"#/texts/0", .text, "Hello", some 1, 0, "#/texts/0"⟩ : Node) ∈
      (projectGraph (buildGraph exampleDoc) (some 1) (some 1)).nodes ∧
    ∃ p ∈ (projectGraph (buildGraph exampleDoc) (some 1) (some 1)).nodes,
      p.id = "#/body" :=
  ⟨by decide,
   projection_connectivity (buildGraph exampleDoc) (some 1) (some 1)
     (by decide)
     ⟨"#/body", .document, "Document #0", none, 0, "#/body"⟩ (by decide)
     ⟨"#/texts/0", .text, "Hello", some 1, 0, "#/texts/0"⟩ (by decide) (by decide)
     ⟨"#/body", "#/texts/0", 0⟩ (by decide) (by decide)⟩

/-- C5: projection monotonicity — when one page range contains another,
every node present in the projection of the narrower range is also present
in the projection of the wider range. -/
theorem projection_monotone (g : Graph) (lo hi lo2 hi2 : Option Nat)
    (hsub : ∀ p : Option Nat, pageInRange lo2 hi2 p = true →
      pageInRange lo hi p = true)
    (n : Node) (hn : n ∈ (projectGraph g lo2 hi2).nodes) :
    n ∈ (projectGraph g lo hi).nodes := by
  rcases List.mem_filter.mp hn with ⟨hng, hk⟩
  exact List.mem_filter.mpr ⟨hng,
    decide_eq_true (keepIds_mono g lo hi lo2 hi2 hsub (of_decide_eq_true hk))⟩

theorem projection_monotone_witness :
    (⟨"#/texts/0", .text, "Hello", some 1, 0, "#/texts/0"⟩ : Node) ∈
      (projectGraph (buildGraph exampleDoc) none none).nodes :=
  projection_monotone (buildGraph exampleDoc) none none (some 1) (some 1)
    (by intro p hp
        cases p with
        | none => simp [pageInRange] at hp
        | some pg => rfl)
    _ (by decide)

/-- C6: tolerance to missing provenance — for a document containing no
`prov`/`provenance` field anywhere, the builder still returns a graph in
which every node's page is absent; page extraction and the build are total
functions, so no failure is ever raised. -/
theorem missing_prov_tolerated (d : DocumentSrc) (hnp : noProv d) :
    ∀ n ∈ (buildGraph d).nodes, n.page = none := by
  cases hb : d.body with
  | none => intro n hn; simp [buildGraph, hb] at hn
  | some body =>
    cases hrf : body.self_ref with
    | none => intro n hn; simp [buildGraph, hb, hrf] at hn
    | some rootRef =>
      intro n hn
      have hidx : ∀ p ∈ (buildIndex d).1, (Prod.snd p).prov = none := by
        intro p hp
        obtain ⟨r2, it2⟩ := p
        exact hnp it2 (buildIndex_mem d r2 it2 hp)
      have hbody : body ∈ indexItems d := by
        simp [indexItems, hb]
      have hg0 : ∀ n2 ∈ ([⟨rootRef, .document, labelOf body .document 0,
          extractPage body, 0, rootRef⟩] : List Node), n2.page = none := by
        intro n2 hn2
        rcases List.mem_singleton.mp hn2 with rfl
        show extractPage body = none
        simp [extractPage, hnp body hbody]
      have hall := visit_pages (buildIndex d).1 hidx (fuelFor (buildIndex d).1)
        [rootRef] rootRef body.children.enum
        ⟨[⟨rootRef, .document, labelOf body .document 0, extractPage body, 0,
          rootRef⟩], [], (buildIndex d).2⟩ hg0
      simp only [buildGraph, hb, hrf] at hn
      exact hall n hn

theorem missing_prov_tolerated_witness :
    noProv noProvDoc ∧ ∀ n ∈ (buildGraph noProvDoc).nodes, n.page = none :=
  ⟨by decide, missing_prov_tolerated noProvDoc (by decide)⟩

/-- C7: cycle-safe termination — the traversal is a total function, and when
a child reference points back to the active recursion path the builder
skips it (creating no edge and not recursing into it), records a cycle
warning, and continues normally with the remaining siblings. -/
theorem builder_skips_cycles (idx : List (String × Item)) (fuel : Nat)
    (path : List String) (parentId c : String) (ord : Nat)
    (rest : List (Nat × String)) (g : Graph) (hc : c ∈ path) :
    visit idx (fuel + 1) path parentId ((ord, c) :: rest) g =
      visit idx fuel path parentId rest (addWarning g (.cycleRef c)) ∧
    Warning.cycleRef c ∈
      (visit idx (fuel + 1) path parentId ((ord, c) :: rest) g).warnings := by
  have h1 : visit idx (fuel + 1) path parentId ((ord, c) :: rest) g =
      visit idx fuel path parentId rest (addWarning g (.cycleRef c)) := by
    simp only [visit]
    rw [if_pos hc]
  refine ⟨h1, ?_⟩
  rw [h1]
  exact (visit_mono idx fuel path parentId rest _).2.2 _
    (List.mem_append_right _ (List.mem_singleton.mpr rfl))

theorem builder_skips_cycles_witness :
    visit [] 1 ["#/body"] "#/body" [(0, "#/body")] ⟨[], [], []⟩ =
      visit [] 0 ["#/body"] "#/body" [] (addWarning ⟨[], [], []⟩ (.cycleRef "#/body")) ∧
    Warning.cycleRef "#/body" ∈
      (visit [] 1 ["#/body"] "#/body" [(0, "#/body")] ⟨[], [], []⟩).warnings :=
  builder_skips_cycles [] 0 ["#/body"] "#/body" "#/body" 0 [] ⟨[], [], []⟩
    (List.mem_singleton.mpr rfl)

/-- C8: the polling loops of the ForceAtlas2 init script
(`src/unnamed/part_000`) and the Euler init script clear their interval
within at most 20 callback invocations in every environment, whether or not
`window.cytoscape` or the plugin global ever becomes available. -/
theorem poll_always_clears (env : BrowserEnv) :
    (∃ k, pollRun (fa2TryRegister env) 20 0 = some k ∧ k ≤ 20) ∧
    (∃ k, pollRun (eulerTryRegister env) 20 0 = some k ∧ k ≤ 20) :=
  ⟨pollRun_clears (fa2TryRegister env) 20 0 rfl (by omega),
   pollRun_clears (eulerTryRegister env) 20 0 rfl (by omega)⟩

/-- C9: the keydown handler never clicks a zoom button (and never calls
`preventDefault`, since that happens exactly when a button is clicked) for
events targeting an input, textarea or contentEditable element; for every
other target it clicks zoom-in exactly for '+' and '=', zoom-out exactly
for '-' and '_', zoom-reset exactly for '0', and nothing otherwise. -/
theorem keyboard_guard (e : KeyEvent) :
    (formField e.target → handleKeydown e = none) ∧
    (¬ formField e.target → handleKeydown e = keyAction e.key) := by
  constructor
  · intro h
    have h2 : targetTag e.target = "input" ∨ targetTag e.target = "textarea" ∨
        e.target.isContentEditable = true := h
    simp only [handleKeydown]
    rw [if_pos h2]
  · intro h
    have h2 : ¬(targetTag e.target = "input" ∨ targetTag e.target = "textarea" ∨
        e.target.isContentEditable = true) := h
    simp only [handleKeydown, keyAction]
    rw [if_neg h2]

theorem keyboard_guard_witness :
    (formField ⟨some "INPUT", false⟩ ∧
      handleKeydown ⟨"+", ⟨some "INPUT", false⟩⟩ = none) ∧
    (¬ formField ⟨some "DIV", false⟩ ∧
      handleKeydown ⟨"+", ⟨some "DIV", false⟩⟩ = keyAction "+") :=
  ⟨⟨by decide, (keyboard_guard ⟨"+", ⟨some "INPUT", false⟩⟩).1 (by decide)⟩,
   ⟨by decide, (keyboard_guard ⟨"+", ⟨some "DIV", false⟩⟩).2 (by decide)⟩⟩

/-- C10: in the ForceAtlas2 layout shim, for every `scalingRatio` supplied
(including 0, negative numbers, `NaN` or `undefined`) the effective scaling
factor is a rational at least 1/2, so the inner COSE layout is always
invoked with `nodeRepulsion = 2048 * s ≥ 1024` and
`idealEdgeLength = 50 * s ≥ 25`; with no `cy`, `run` invokes no layout. -/
theorem fa2_scaling_safe (scalingRatioOpt : Option JSVal) :
    (∃ s : ℚ, 1 / 2 ≤ s ∧
      fa2Run true scalingRatioOpt = some ⟨.num (2048 * s), .num (50 * s)⟩ ∧
      (1024 : ℚ) ≤ 2048 * s ∧ (25 : ℚ) ≤ 50 * s) ∧
    fa2Run false scalingRatioOpt = none := by
  constructor
  · have key : ∃ s : ℚ, 1 / 2 ≤ s ∧
        jsMax (.num (1 / 2)) (jsOr (mergedScaling scalingRatioOpt) (.num 1)) =
          .num s := by
      cases scalingRatioOpt with
      | none =>
        exact ⟨max (1 / 2) 1, le_max_left _ _,
          by norm_num [mergedScaling, jsOr, truthy, jsMax]⟩
      | some v =>
        cases v with
        | undef =>
          exact ⟨max (1 / 2) 1, le_max_left _ _,
            by norm_num [mergedScaling, jsOr, truthy, jsMax]⟩
        | nan =>
          exact ⟨max (1 / 2) 1, le_max_left _ _,
            by norm_num [mergedScaling, jsOr, truthy, jsMax]⟩
        | num q =>
          by_cases hq : q = 0
          · subst hq
            exact ⟨max (1 / 2) 1, le_max_left _ _,
              by norm_num [mergedScaling, jsOr, truthy, jsMax]⟩
          · exact ⟨max (1 / 2) q, le_max_left _ _,
              by simp [mergedScaling, jsOr, truthy, hq, jsMax]⟩
    obtain ⟨s, hs, heq⟩ := key
    refine ⟨s, hs, ?_, by linarith, by linarith⟩
    have hrun : fa2Run true scalingRatioOpt =
        some ⟨jsMul (.num 2048)
                (jsMax (.num (1 / 2)) (jsOr (mergedScaling scalingRatioOpt) (.num 1))),
              jsMul (.num 50)
                (jsMax (.num (1 / 2)) (jsOr (mergedScaling scalingRatioOpt) (.num 1)))⟩ :=
      rfl
    rw [hrun, heq]
    rfl
  · rfl

end DoclingGraph
